import Mathlib

/-!
Verification development for the ui_interaction repository.

The development shallowly embeds the element text read/write protocol
(src/platform/windows/element.rs and src/text.rs), the query/matching engine
(src/core.rs) and the tree snapshot builder (src/platform/windows/window.rs).

Modelling conventions:
- A text value (Rust String slice content) is a list of characters (Str below);
  Rust byte indices are modelled through an explicit UTF-8 byte-length function.
- The OS accessibility layer (the uiautomation crate) is an external
  collaborator.  Every OS call that injects input or reads state is recorded as
  an Effect; an Env gives the (deterministic) response of the OS to each call,
  as a function of the trace of effects performed so far.  Calls whose failure
  the source only logs (warn!) are recorded in the trace but do not influence
  control flow, exactly as in the source.
- OS property reads (control type, name, class name, pattern values) are
  modelled as total: the embedding covers the runs in which those reads
  succeed, which is the only behaviour the specification claims discuss.
-/

namespace UII

/-- Text content, as a list of characters (a Rust String is UTF-8 text;
character-level operations in the source use str::chars()). -/
abbrev Str := List Char

/-- The control types named in the source (uiautomation::controls::ControlType).
Constructors beyond the ones the source names explicitly are represented
by the sample of other control types below (Button, Hyperlink, ListItem, Tree):
they all take the catch-all `_ => false` branch of is_input_control. -/
inductive ControlType where
  | Edit
  | ComboBox
  | CheckBox
  | RadioButton
  | Slider
  | Text
  | Document
  | Pane
  | Custom
  | Button
  | Hyperlink
  | ListItem
  | Tree
deriving DecidableEq, Repr

/-- One OS interaction performed by the text protocol: selecting the document
range, focusing the element, a send_keys call, a send_text call, or a
thread::sleep settle delay. -/
inductive Effect where
  | selectRange
  | setFocus
  | sendKeys (keys : String) (interval : Nat)
  | sendText (s : Str) (interval : Nat)
  | sleep (ms : Nat)
deriving DecidableEq, Repr

/-- The OS environment: outcomes of send calls and the content the element
reports, each as a function of the effect trace performed so far. valueRead is
the Value pattern's current value, textRead the Text pattern's document range
text, nameRead the Name property (used by TextHandler::get_text). -/
structure Env where
  sendTextOk : List Effect → Str → Nat → Bool
  sendKeysOk : List Effect → String → Nat → Bool
  valueRead : List Effect → Str
  textRead : List Effect → Str
  nameRead : List Effect → Str

/-- A WindowsElement as seen by the text protocol: its control type and which
of the two text-capability patterns (UIValuePattern / UITextPattern) the
element exposes.  The name and class name are only logged by the source and
are omitted. -/
structure Elem where
  controlType : ControlType
  hasValuePattern : Bool
  hasTextPattern : Bool
deriving DecidableEq, Repr

/-- Errors returned (as Err) by the text protocol in element.rs. -/
inductive UIAError where
  | notAnInputControl
  | sendFailed
deriving DecidableEq, Repr

/-- How a Rust call ends: normal Ok return, Err return, or a panic
(an out-of-bounds / non-char-boundary string slice). -/
inductive RustOutcome where
  | ok
  | err (e : UIAError)
  | panicked
deriving DecidableEq, Repr

/-- Key sequence sent to clear the element, element.rs set_text. -/
def ctrlADeleteKeys : String := "{Ctrl}a{Delete}"

/-- Key sequence for an insert-line-break keystroke (Shift+Enter), sent by
element.rs set_text and text.rs set_multiline_text. -/
def shiftEnterKeys : String := "{shift}{enter}"

/-- Key sequence moving the caret to the end of the current line. -/
def endKeys : String := "{END}"

/-- Key sequence moving the caret to the end of the text block. -/
def ctrlEndKeys : String := "{CTRL}{END}"

/-- Backspace keystroke used by append_text corrections. -/
def backspaceKeys : String := "{BACKSPACE}"

/-- The single space injected between words during corrections. -/
def spaceStr : Str := [' ']

/-- WindowsElement::is_input_control, element.rs lines 53-72, transcribed
case by case. -/
def is_input_control (e : Elem) : Bool :=
  match e.controlType with
  | .Edit => true
  | .ComboBox => true
  | .CheckBox => true
  | .RadioButton => true
  | .Slider => true
  | .Text => true
  | .Document => true
  | .Pane => e.hasValuePattern || e.hasTextPattern
  | .Custom => e.hasValuePattern
  | _ => false

/-- WindowsElement::get_text, element.rs lines 97-130: try the Value pattern,
return its value if non-empty; else try the Text pattern's document range,
return its text if non-empty; else return the empty string. -/
def get_text (e : Elem) (env : Env) (tr : List Effect) : Str :=
  if e.hasValuePattern && !(env.valueRead tr).isEmpty then env.valueRead tr
  else if e.hasTextPattern && !(env.textRead tr).isEmpty then env.textRead tr
  else []

/-- Rust char::is_ascii: the codepoint fits in 7 bits. -/
def charIsAscii (c : Char) : Bool := c.toNat < 128

/-- Rust char::len_utf8: the number of UTF-8 bytes of one character. -/
def charUtf8Len (c : Char) : Nat :=
  if c.toNat < 128 then 1
  else if c.toNat < 2048 then 2
  else if c.toNat < 65536 then 3
  else 4

/-- Rust String::len: the UTF-8 byte length of a string. -/
def byteLen : Str → Nat
  | [] => 0
  | c :: cs => charUtf8Len c + byteLen cs

/-- Rust byte-index slicing s[i..]: defined (some suffix) exactly when i lands
on a character boundary; none models the panic raised otherwise. -/
def sliceAtByte : Str → Nat → Option Str
  | s, 0 => some s
  | [], _ + 1 => none
  | c :: cs, n + 1 =>
    if n + 1 < charUtf8Len c then none
    else sliceAtByte cs (n + 1 - charUtf8Len c)

/-- Accumulator for str::split_whitespace (whitespace runs separate words,
no empty words). -/
def splitWsAux : Str → Str → List Str
  | [], acc => if acc.isEmpty then [] else [acc.reverse]
  | c :: cs, acc =>
    if c.isWhitespace then
      if acc.isEmpty then splitWsAux cs []
      else acc.reverse :: splitWsAux cs []
    else splitWsAux cs (c :: acc)

/-- Rust str::split_whitespace().collect(). -/
def split_whitespace (s : Str) : List Str := splitWsAux s []

/-- Rust str::split on a newline character (keeps empty segments). -/
def splitNl : Str → List Str
  | [] => [[]]
  | c :: cs =>
    if c = '\n' then [] :: splitNl cs
    else
      match splitNl cs with
      | s :: ss => (c :: s) :: ss
      | [] => [[c]]

/-- Rust str::replace of a CRLF pair by a newline (left-to-right,
non-overlapping). -/
def replaceCrlf : Str → Str
  | '\r' :: '\n' :: rest => '\n' :: replaceCrlf rest
  | c :: rest => c :: replaceCrlf rest
  | [] => []

/-- Rust str::replace of a lone carriage return by a newline. -/
def replaceCr (s : Str) : Str :=
  s.map (fun c => if c = '\r' then '\n' else c)

/-- Line-ending normalization used by text.rs set_multiline_text verification:
replace CRLF by a newline, then lone CR by a newline. -/
def normalizeNewlines (s : Str) : Str := replaceCr (replaceCrlf s)

/-- The character-by-character fallback of element.rs set_text (lines
206-225): newline characters become a Shift+Enter keystroke; every other
character is sent as a one-character send_text at interval 15, followed by a
10ms settle delay when the character is not ASCII.  Send failures are only
logged. -/
def setCharLoop : Str → List Effect → List Effect
  | [], tr => tr
  | c :: cs, tr =>
    if c = '\n' then
      setCharLoop cs (tr ++ [Effect.sendKeys shiftEnterKeys 20])
    else
      let tr1 := tr ++ [Effect.sendText [c] 15]
      let tr2 := if charIsAscii c then tr1 else tr1 ++ [Effect.sleep 10]
      setCharLoop cs tr2

/-- The word-by-word correction loop of element.rs set_text (lines 198-237):
send each word at interval 20, falling back to setCharLoop when the word send
fails; a single space between words (not after the last); a 20ms delay after
each word. -/
def setWordLoop (env : Env) : List Str → List Effect → List Effect
  | [], tr => tr
  | w :: rest, tr =>
    let tr1 := tr ++ [Effect.sendText w 20]
    let tr2 := if env.sendTextOk tr w 20 then tr1 else setCharLoop w tr1
    let tr3 := if rest.isEmpty then tr2 else tr2 ++ [Effect.sendText spaceStr 10]
    setWordLoop env rest (tr3 ++ [Effect.sleep 20])

/-- The best-effort select-all step of set_text: the document range is
selected when the Text pattern is available; failure is only logged. -/
def selectAllTrace (e : Elem) : List Effect :=
  if e.hasTextPattern then [Effect.selectRange] else []

/-- The trace accumulated by set_text before the bulk send_text call:
best-effort select-all, then Ctrl+A Delete clearing between settle delays
(element.rs lines 148-164). -/
def setClearTrace (e : Elem) : List Effect :=
  selectAllTrace e ++ [Effect.sleep 50, Effect.sendKeys ctrlADeleteKeys 10, Effect.sleep 50]

/-- Result of set_text: the effect trace, the returned Result, and whether the
final verification logged a mismatch warning (element.rs line 248). -/
structure WriteOutcome where
  trace : List Effect
  result : RustOutcome
  finalMismatch : Bool
deriving DecidableEq, Repr

/-- WindowsElement::set_text, element.rs lines 132-255. -/
def set_text (e : Elem) (env : Env) (text : Str) : WriteOutcome :=
  if !is_input_control e then
    { trace := [], result := .err .notAnInputControl, finalMismatch := false }
  else
    let tr1 := setClearTrace e
    if !env.sendTextOk tr1 text 30 then
      { trace := tr1 ++ [Effect.sendText text 30], result := .err .sendFailed,
        finalMismatch := false }
    else
      let tr2 := tr1 ++ [Effect.sendText text 30, Effect.sleep 200]
      let actual := get_text e env tr2
      if actual = text then
        { trace := tr2, result := .ok, finalMismatch := false }
      else
        let tr3 := tr2 ++ [Effect.sendKeys ctrlADeleteKeys 10, Effect.sleep 50]
        let tr4 := setWordLoop env (split_whitespace text) tr3
        let tr5 := tr4 ++ [Effect.sleep 100]
        let finalText := get_text e env tr5
        { trace := tr5, result := .ok, finalMismatch := finalText != text }

/-- AppendPosition, core.rs. -/
inductive AppendPosition where
  | CurrentCursor
  | EndOfLine
  | EndOfText
deriving DecidableEq, Repr

/-- The character-by-character fallback of element.rs append_text (lines
353-363): like set_text's fallback but with no newline special case. -/
def appendCharLoop : Str → List Effect → List Effect
  | [], tr => tr
  | c :: cs, tr =>
    let tr1 := tr ++ [Effect.sendText [c] 15]
    let tr2 := if charIsAscii c then tr1 else tr1 ++ [Effect.sleep 10]
    appendCharLoop cs tr2

/-- The word-by-word correction loop of element.rs append_text (lines
345-375). -/
def appendWordLoop (env : Env) : List Str → List Effect → List Effect
  | [], tr => tr
  | w :: rest, tr =>
    let tr1 := tr ++ [Effect.sendText w 20]
    let tr2 := if env.sendTextOk tr w 20 then tr1 else appendCharLoop w tr1
    let tr3 := if rest.isEmpty then tr2 else tr2 ++ [Effect.sendText spaceStr 10]
    appendWordLoop env rest (tr3 ++ [Effect.sleep 20])

/-- The backspace removal loop of element.rs append_text (lines 335-340):
one backspace per character to remove, stopping early if a send fails. -/
def backspaceLoop (env : Env) : Nat → List Effect → List Effect
  | 0, tr => tr
  | n + 1, tr =>
    let tr1 := tr ++ [Effect.sendKeys backspaceKeys 10]
    if env.sendKeysOk tr backspaceKeys 10 then backspaceLoop env n tr1 else tr1

/-- Caret positioning keys sent by append_text for each AppendPosition
(element.rs lines 270-291); failures are only logged. -/
def positionTrace : AppendPosition → List Effect
  | .CurrentCursor => []
  | .EndOfLine => [Effect.sendKeys endKeys 10]
  | .EndOfText => [Effect.sendKeys ctrlEndKeys 10]

/-- The trace accumulated by append_text before the baseline read and the bulk
send: best-effort focus, positioning keys, and a 50ms settle delay. -/
def appendPreTrace (pos : AppendPosition) : List Effect :=
  Effect.setFocus :: positionTrace pos ++ [Effect.sleep 50]

/-- Result of append_text: effect trace, Rust outcome, and the
actually_appended suffix the verification computed (empty on the paths where
the source never computes it). -/
structure AppendOutcome where
  trace : List Effect
  result : RustOutcome
  actuallyAppended : Str
deriving DecidableEq, Repr

/-- The comparison-and-correction tail of append_text (element.rs lines
322-378): return Ok if the appended suffix equals the intended text; otherwise
remove the appended characters by backspace (with a 100ms delay when at least
one was removed) and retry word by word; the final result is Ok. -/
def appendContinue (env : Env) (text : Str) (tr2 : List Effect) (appended : Str) :
    AppendOutcome :=
  if appended = text then
    { trace := tr2, result := .ok, actuallyAppended := appended }
  else
    let k := appended.length
    let tr3 := if 0 < k then backspaceLoop env k tr2 ++ [Effect.sleep 100] else tr2
    let tr4 := appendWordLoop env (split_whitespace text) tr3
    { trace := tr4, result := .ok, actuallyAppended := appended }

/-- WindowsElement::append_text, element.rs lines 257-379.  The appended
suffix is obtained by byte-slicing the re-read text at the byte length of the
baseline whenever the re-read text is byte-longer; a slice not on a character
boundary is the panic outcome. -/
def append_text (e : Elem) (env : Env) (text : Str) (pos : AppendPosition) :
    AppendOutcome :=
  if !is_input_control e then
    { trace := [], result := .err .notAnInputControl, actuallyAppended := [] }
  else
    let tr1 := appendPreTrace pos
    let textBefore := get_text e env tr1
    if !env.sendTextOk tr1 text 30 then
      { trace := tr1 ++ [Effect.sendText text 30], result := .err .sendFailed,
        actuallyAppended := [] }
    else
      let tr2 := tr1 ++ [Effect.sendText text 30, Effect.sleep 200]
      let textAfter := get_text e env tr2
      if byteLen textBefore < byteLen textAfter then
        match sliceAtByte textAfter (byteLen textBefore) with
        | none => { trace := tr2, result := .panicked, actuallyAppended := [] }
        | some appended => appendContinue env text tr2 appended
      else
        appendContinue env text tr2 []

/-- TextHandler::get_text, text.rs lines 22-49: the ValueValue property if
non-empty, else the Name property. -/
def thGetText (env : Env) (tr : List Effect) : Str :=
  let v := env.valueRead tr
  if !v.isEmpty then v else env.nameRead tr

/-- The line loop of text.rs set_multiline_text (lines 195-212): for each
line, a 50ms delay then send the line at interval 10 (failure is fatal);
between lines, a 50ms delay then a Shift+Enter keystroke (failure is
fatal). -/
def thMultiLoop (env : Env) : List Str → List Effect → List Effect × RustOutcome
  | [], tr => (tr, .ok)
  | l :: rest, tr =>
    let tr1 := tr ++ [Effect.sleep 50, Effect.sendText l 10]
    if !env.sendTextOk (tr ++ [Effect.sleep 50]) l 10 then (tr1, .err .sendFailed)
    else if rest.isEmpty then (tr1, .ok)
    else
      let tr2 := tr1 ++ [Effect.sleep 50, Effect.sendKeys shiftEnterKeys 20]
      if !env.sendKeysOk (tr1 ++ [Effect.sleep 50]) shiftEnterKeys 20 then
        (tr2, .err .sendFailed)
      else thMultiLoop env rest tr2

/-- Result of the TextHandler write paths: effect trace, Rust outcome, and
whether the logged verification succeeded. -/
structure MultilineOutcome where
  trace : List Effect
  result : RustOutcome
  verified : Bool
deriving DecidableEq, Repr

/-- TextHandler::set_multiline_text, text.rs lines 175-236, starting from the
trace tr of effects already performed by the caller: best-effort select-all,
the line loop, then a 50ms delay and the verification re-read compared after
normalizing line endings on both sides (the comparison is only logged; the
returned Result is Ok whenever the loop succeeded). -/
def set_multiline_text (e : Elem) (env : Env) (newText : Str) (tr : List Effect) :
    MultilineOutcome :=
  let tr0 := tr ++ (if e.hasTextPattern then [Effect.selectRange] else [])
  match thMultiLoop env (splitNl newText) tr0 with
  | (trL, RustOutcome.err er) => { trace := trL, result := .err er, verified := false }
  | (trL, _) =>
    let tr2 := trL ++ [Effect.sleep 50]
    let current := thGetText env tr2
    { trace := tr2, result := .ok,
      verified := normalizeNewlines current == normalizeNewlines newText }

/-- TextHandler::set_single_line_text, text.rs lines 123-172: best-effort
select-all, 50ms delay, one bulk send at interval 10 (20 for texts over 1000
bytes; failure is fatal), then a 50ms delay and an exact logged
verification. -/
def set_single_line_text (e : Elem) (env : Env) (newText : Str)
    (tr : List Effect) : MultilineOutcome :=
  let tr0 := tr ++ (if e.hasTextPattern then [Effect.selectRange] else [])
  let interval := if 1000 < byteLen newText then 20 else 10
  let tr1 := tr0 ++ [Effect.sleep 50, Effect.sendText newText interval]
  if !env.sendTextOk (tr0 ++ [Effect.sleep 50]) newText interval then
    { trace := tr1, result := .err .sendFailed, verified := false }
  else
    let tr2 := tr1 ++ [Effect.sleep 50]
    let current := thGetText env tr2
    { trace := tr2, result := .ok, verified := current == newText }

/-- TextHandler::set_text, text.rs lines 52-72: best-effort focus, then the
multiline path when the text contains a newline, the single-line path
otherwise. -/
def th_set_text (e : Elem) (env : Env) (newText : Str) : MultilineOutcome :=
  if newText.contains '\n' then
    set_multiline_text e env newText [Effect.setFocus]
  else
    set_single_line_text e env newText [Effect.setFocus]

/-- The error the query engine can meet: UIElement::get_children failed (for
WindowsElement: the walker found no children and the method returns the error
string, element.rs lines 502-504). -/
inductive QErr where
  | noChildren
deriving DecidableEq, Repr

/-- An implementer of the core.rs UIElement trait as consumed by the query
engine: a property snapshot (get_properties, total as in
WindowsElement::get_properties which never errors), and a children accessor
that either fails or yields an ordered child list.  childrenFail records
whether get_children returns Err on this element; WindowsLike below
characterizes the WindowsElement implementation, whose get_children fails
exactly when the child list is empty. -/
inductive WElem where
  | mk (props : List (String × String)) (childrenFail : Bool) (children : List WElem)

/-- The property snapshot of an element (get_properties). -/
def WElem.props : WElem → List (String × String)
  | .mk ps _ _ => ps

/-- Whether get_children fails on this element. -/
def WElem.childrenFail : WElem → Bool
  | .mk _ b _ => b

/-- The ordered child list reported when get_children succeeds. -/
def WElem.childrenList : WElem → List WElem
  | .mk _ _ cs => cs

/-- UIElement::get_children as seen by the query engine. -/
def getChildren (e : WElem) : Except QErr (List WElem) :=
  if e.childrenFail then .error .noChildren else .ok e.childrenList

/-- HashMap::get on the property snapshot (keys are unique in the snapshot the
source builds, so first-match association lookup is faithful). -/
def lookupProp (props : List (String × String)) (key : String) : Option String :=
  match props with
  | [] => none
  | (k, v) :: rest => if k = key then some v else lookupProp rest key

/-- Property key under which get_properties stores the element name. -/
def nameKey : String := "name"

/-- Property key under which get_properties stores the control type. -/
def controlTypeKey : String := "control_type"

/-- UIQuery, core.rs lines 1112-1124. -/
inductive UIQuery where
  | ByName (name : String)
  | ByType (controlType : String)
  | ByProperty (key value : String)
  | And (qs : List UIQuery)
  | Or (qs : List UIQuery)
  | Not (q : UIQuery)
  | Child (q : UIQuery)
  | Descendant (q : UIQuery)
  | Parent (q : UIQuery)
  | Ancestor (q : UIQuery)

mutual

/-- UIQuery::matches, core.rs lines 1142-1203.  In the Child and Descendant
cases, element.get_children()? is unfolded through getChildren: the error
branch propagates getChildren's error (the only QErr), and the ok branch binds
the child list. -/
def matchesQ : UIQuery → WElem → Except QErr Bool
  | .ByName n, e =>
    match lookupProp e.props nameKey with
    | some v => .ok (v = n)
    | none => .ok false
  | .ByType t, e =>
    match lookupProp e.props controlTypeKey with
    | some v => .ok (v = t)
    | none => .ok false
  | .ByProperty k val, e =>
    match lookupProp e.props k with
    | some v => .ok (v = val)
    | none => .ok false
  | .And qs, e => matchesAll qs e
  | .Or qs, e => matchesAnyQ qs e
  | .Not q, e =>
    match matchesQ q e with
    | .error er => .error er
    | .ok b => .ok (!b)
  | .Child q, e =>
    if e.childrenFail then .error .noChildren
    else matchesChildAny q e.childrenList
  | .Descendant q, e =>
    if e.childrenFail then .error .noChildren
    else matchesDescAny q e.childrenList
  | .Parent _, _ => .ok false
  | .Ancestor _, _ => .ok false
termination_by q e => (sizeOf e, sizeOf q)
decreasing_by
  all_goals simp_wf
  all_goals
    first
    | (apply Prod.Lex.right
       all_goals try simp
       all_goals omega)
    | (apply Prod.Lex.left
       all_goals try (cases e; simp [WElem.childrenList])
       all_goals try simp
       all_goals omega)

/-- The And loop: stop at the first sub-query that does not match. -/
def matchesAll : List UIQuery → WElem → Except QErr Bool
  | [], _ => .ok true
  | q :: rest, e =>
    match matchesQ q e with
    | .error er => .error er
    | .ok false => .ok false
    | .ok true => matchesAll rest e
termination_by qs e => (sizeOf e, sizeOf qs)
decreasing_by
  all_goals simp_wf
  all_goals
    first
    | (apply Prod.Lex.right
       all_goals try simp
       all_goals omega)
    | (apply Prod.Lex.left
       all_goals try simp
       all_goals omega)

/-- The Or loop: stop at the first sub-query that matches. -/
def matchesAnyQ : List UIQuery → WElem → Except QErr Bool
  | [], _ => .ok false
  | q :: rest, e =>
    match matchesQ q e with
    | .error er => .error er
    | .ok true => .ok true
    | .ok false => matchesAnyQ rest e
termination_by qs e => (sizeOf e, sizeOf qs)
decreasing_by
  all_goals simp_wf
  all_goals
    first
    | (apply Prod.Lex.right
       all_goals try simp
       all_goals omega)
    | (apply Prod.Lex.left
       all_goals try simp
       all_goals omega)

/-- The Child loop: whether any direct child satisfies the sub-query. -/
def matchesChildAny : UIQuery → List WElem → Except QErr Bool
  | _, [] => .ok false
  | q, c :: rest =>
    match matchesQ q c with
    | .error er => .error er
    | .ok true => .ok true
    | .ok false => matchesChildAny q rest
termination_by q cs => (sizeOf cs, sizeOf q)
decreasing_by
  all_goals simp_wf
  all_goals
    first
    | (apply Prod.Lex.right
       all_goals try simp
       all_goals omega)
    | (apply Prod.Lex.left
       all_goals try simp
       all_goals omega)

/-- The Descendant loop: whether any child matches the sub-query or has a
descendant that does. -/
def matchesDescAny : UIQuery → List WElem → Except QErr Bool
  | _, [] => .ok false
  | q, c :: rest =>
    match matchesQ q c with
    | .error er => .error er
    | .ok true => .ok true
    | .ok false =>
      match matchesQ (.Descendant q) c with
      | .error er => .error er
      | .ok true => .ok true
      | .ok false => matchesDescAny q rest
termination_by q cs => (sizeOf cs, sizeOf q)
decreasing_by
  all_goals simp_wf
  all_goals
    first
    | (apply Prod.Lex.right
       all_goals try simp
       all_goals omega)
    | (apply Prod.Lex.left
       all_goals try simp
       all_goals omega)

end

mutual

/-- UIQuery::find_all, core.rs lines 1237-1250: depth-first pre-order, the
root included when it is a match, descending into every child (get_children
errors propagate). -/
def find_all (q : UIQuery) (root : WElem) : Except QErr (List WElem) :=
  match matchesQ q root with
  | .error er => .error er
  | .ok m =>
    let base := if m then [root] else []
    if root.childrenFail then .error .noChildren
    else
      match findAllList q root.childrenList with
      | .error er => .error er
      | .ok rest => .ok (base ++ rest)
termination_by sizeOf root
decreasing_by
  all_goals simp_wf
  all_goals cases root
  all_goals simp [WElem.childrenList]
  all_goals omega

/-- The child loop of find_all, extending the result list in order. -/
def findAllList (q : UIQuery) : List WElem → Except QErr (List WElem)
  | [] => .ok []
  | c :: cs =>
    match find_all q c with
    | .error er => .error er
    | .ok rc =>
      match findAllList q cs with
      | .error er => .error er
      | .ok rest => .ok (rc ++ rest)
termination_by cs => sizeOf cs
decreasing_by
  all_goals simp_wf
  all_goals try simp
  all_goals omega

end

/-- x occurs in the tree rooted at e (e itself, or in a child's subtree). -/
inductive OccursIn : WElem → WElem → Prop where
  | here (e : WElem) : OccursIn e e
  | child {x c e : WElem} : c ∈ e.childrenList → OccursIn x c → OccursIn x e

/-- The WindowsElement implementation of get_children (element.rs lines
477-506): it fails exactly when the element has no accessible children,
hereditarily. -/
inductive WindowsLike : WElem → Prop where
  | mk {e : WElem} :
    e.childrenFail = e.childrenList.isEmpty →
    (∀ c ∈ e.childrenList, WindowsLike c) →
    WindowsLike e

/-- UITreeNode, core.rs, restricted to the fields the snapshot builder
computes from tree structure: name, control type, the properties map and the
ordered children.  bounds / is_enabled / is_visible are direct per-node OS
reads that do not affect the tree shape and are omitted. -/
inductive UITreeNode where
  | mk (name : String) (controlType : String)
       (properties : List (String × String)) (children : List UITreeNode)

/-- The children of a snapshot node. -/
def UITreeNode.children : UITreeNode → List UITreeNode
  | .mk _ _ _ cs => cs

mutual

/-- build_tree_node, window.rs lines 399-446: name and control type are read
from the element (the property snapshot), the per-node properties map holds
name and control_type, and children are built only while depth < max_depth,
processing at most 50 children at the root level and 20 at deeper levels
(get_children errors yield no children). -/
def buildTreeNode : WElem → Nat → Nat → UITreeNode
  | WElem.mk props cf cs, depth, maxDepth =>
    let name := (lookupProp props nameKey).getD ""
    let ctype := (lookupProp props controlTypeKey).getD "Unknown"
    let kids :=
      if depth < maxDepth then
        if cf then []
        else buildKids (if depth = 0 then 50 else 20) cs depth maxDepth
      else []
    UITreeNode.mk name ctype [(nameKey, name), (controlTypeKey, ctype)] kids
termination_by e depth maxDepth => sizeOf e
decreasing_by
  all_goals simp_wf
  all_goals try simp
  all_goals omega

/-- The into_iter().take(max_children) loop of build_tree_node: build at most
n children, each at depth + 1. -/
def buildKids : Nat → List WElem → Nat → Nat → List UITreeNode
  | 0, _, _, _ => []
  | _ + 1, [], _, _ => []
  | n + 1, c :: cs, depth, maxDepth =>
    buildTreeNode c (depth + 1) maxDepth :: buildKids n cs depth maxDepth
termination_by n cs depth maxDepth => sizeOf cs
decreasing_by
  all_goals simp_wf
  all_goals try simp
  all_goals omega

end

/-- get_ui_tree, window.rs line 449: the snapshot root is built with depth 0
and maximum depth 3. -/
def getUiTreeRoot (root : WElem) : UITreeNode := buildTreeNode root 0 3

mutual

/-- Bounded-shape checker for a snapshot node: with fuel 0 the node may have
no children; with positive fuel the node has at most cap children and each
child is checked with cap 20 and one unit less fuel. -/
def boundedCheck : Nat → Nat → UITreeNode → Bool
  | cap, fuel + 1, t =>
    decide (t.children.length ≤ cap) && boundedCheckList fuel t.children
  | _, 0, t => t.children.isEmpty
termination_by cap fuel t => (fuel, sizeOf t)
decreasing_by
  all_goals simp_wf
  all_goals apply Prod.Lex.left
  all_goals omega

/-- boundedCheck over a list of children. -/
def boundedCheckList : Nat → List UITreeNode → Bool
  | _, [] => true
  | fuel, t :: ts => boundedCheck 20 fuel t && boundedCheckList fuel ts
termination_by fuel ts => (fuel, sizeOf ts)
decreasing_by
  all_goals simp_wf
  all_goals apply Prod.Lex.right
  all_goals try simp
  all_goals omega

end

/-- Whether an effect is a backspace keystroke send. -/
def isBackspaceEffect : Effect → Bool
  | .sendKeys k _ => k == backspaceKeys
  | _ => false

/-- Number of backspace keystrokes sent in a trace. -/
def countBackspaces (tr : List Effect) : Nat := (tr.filter isBackspaceEffect).length

/-- Whether an effect is the 10ms settle delay that follows a non-ASCII
character in the character-by-character fallback (the only place a 10ms sleep
occurs). -/
def isSleep10Effect (ef : Effect) : Bool := ef == Effect.sleep 10

/-- Number of 10ms settle delays in a trace. -/
def countSleep10 (tr : List Effect) : Nat := (tr.filter isSleep10Effect).length

/-- Number of non-ASCII characters of a text. -/
def nonAsciiCount (w : Str) : Nat := (w.filter (fun c => !charIsAscii c)).length

/-- Whether an effect belongs to the line-oriented injection of
set_multiline_text: a line send (send_text at interval 10) or the Shift+Enter
line break (send_keys at interval 20). -/
def isLineSendEffect : Effect → Bool
  | .sendText _ 10 => true
  | .sendKeys k 20 => k == shiftEnterKeys
  | _ => false

/-- The subsequence of line sends and line breaks of a trace. -/
def lineSendsOf (tr : List Effect) : List Effect := tr.filter isLineSendEffect

/-- Whether an effect is the Shift+Enter line-break keystroke. -/
def isShiftEnterEffect (ef : Effect) : Bool := ef == Effect.sendKeys shiftEnterKeys 20

/-- Number of Shift+Enter line breaks sent in a trace. -/
def countShiftEnters (tr : List Effect) : Nat := (tr.filter isShiftEnterEffect).length

/-- Number of newline characters of a text. -/
def countNewlines (s : Str) : Nat := (s.filter (fun c => c == '\n')).length

/-- Concrete environment in which every send succeeds and the element always
reads back empty. -/
def envAllOk : Env :=
  { sendTextOk := fun _ _ _ => true
    sendKeysOk := fun _ _ _ => true
    valueRead := fun _ => []
    textRead := fun _ => []
    nameRead := fun _ => [] }

/-- Concrete environment for exercising the append verification: the element
reads back empty before the bulk send and a single character z afterwards. -/
def envAppendW : Env :=
  { envAllOk with valueRead := fun tr => if tr.length ≤ 2 then [] else ['z'] }

/-- Concrete environment for exercising the append byte slice: the element
reads back a one-byte text before the bulk send and a two-byte single
character afterwards. -/
def envPanicW : Env :=
  { envAllOk with valueRead := fun tr => if tr.length ≤ 2 then ['a'] else ['é'] }

/-- An Edit element exposing the Value pattern. -/
def eEditVal : Elem :=
  { controlType := .Edit, hasValuePattern := true, hasTextPattern := false }

/-- An Edit element exposing the Text pattern. -/
def eEditTp : Elem :=
  { controlType := .Edit, hasValuePattern := false, hasTextPattern := true }

/-- A Button element (not an input control). -/
def eButton : Elem :=
  { controlType := .Button, hasValuePattern := false, hasTextPattern := false }

/-- A Custom element exposing only the Text pattern. -/
def eCustomTp : Elem :=
  { controlType := .Custom, hasValuePattern := false, hasTextPattern := true }

/-- A plain Text element exposing neither text capability. -/
def eTextPlain : Elem :=
  { controlType := .Text, hasValuePattern := false, hasTextPattern := false }

/-- Sample texts used by the witnesses. -/
def wHi : Str := ['h', 'i']

/-- A one-character sample text. -/
def wX : Str := ['x']

/-- A sample text with an embedded newline. -/
def wANlB : Str := ['a', '\n', 'b']

/-- Property values used by the query-engine witnesses. -/
def buttonTypeStr : String := "Button"

/-- The Pane control-type string. -/
def paneTypeStr : String := "Pane"

/-- A sample element name. -/
def leafNameStr : String := "leaf"

/-- Another sample element name. -/
def rootNameStr : String := "root"

/-- A childless element whose get_children succeeds with an empty list
(a generic UIElement implementer). -/
def wLeafOk : WElem :=
  .mk [(nameKey, leafNameStr), (controlTypeKey, buttonTypeStr)] false []

/-- A childless element whose get_children fails, as WindowsElement does. -/
def wLeafErr : WElem :=
  .mk [(nameKey, leafNameStr), (controlTypeKey, buttonTypeStr)] true []

/-- A one-child tree whose traversal succeeds. -/
def wRootOk : WElem :=
  .mk [(nameKey, rootNameStr), (controlTypeKey, paneTypeStr)] false [wLeafOk]

/-- Query matching the Button control type. -/
def wqButton : UIQuery := .ByType buttonTypeStr

/-- Query matching the Pane control type. -/
def wqPane : UIQuery := .ByType paneTypeStr

theorem charUtf8Len_pos (c : Char) : 0 < charUtf8Len c := by
  unfold charUtf8Len
  split_ifs <;> omega

theorem byteLen_append (a b : Str) : byteLen (a ++ b) = byteLen a + byteLen b := by
  induction a with
  | nil => simp [byteLen]
  | cons c a ih => simp [byteLen, ih]; omega

theorem sliceAtByte_append (a b : Str) : sliceAtByte (a ++ b) (byteLen a) = some b := by
  induction a with
  | nil => simp [sliceAtByte, byteLen]
  | cons c a ih =>
    have hpos := charUtf8Len_pos c
    obtain ⟨n, hn⟩ : ∃ n, charUtf8Len c + byteLen a = n + 1 :=
      ⟨charUtf8Len c + byteLen a - 1, by omega⟩
    simp only [List.cons_append, byteLen, hn, sliceAtByte]
    rw [if_neg (by omega)]
    have h2 : n + 1 - charUtf8Len c = byteLen a := by omega
    rw [h2]
    exact ih

theorem countBackspaces_append (a b : List Effect) :
    countBackspaces (a ++ b) = countBackspaces a + countBackspaces b := by
  simp [countBackspaces, List.filter_append]

theorem backspaceLoop_all_ok (env : Env)
    (h : ∀ tr, env.sendKeysOk tr backspaceKeys 10 = true) (k : Nat) :
    ∀ tr, backspaceLoop env k tr
      = tr ++ List.replicate k (Effect.sendKeys backspaceKeys 10) := by
  induction k with
  | zero => intro tr; simp [backspaceLoop]
  | succ n ih =>
    intro tr
    simp [backspaceLoop, h, ih, List.replicate_succ]

theorem countBackspaces_replicate (k : Nat) :
    countBackspaces (List.replicate k (Effect.sendKeys backspaceKeys 10)) = k := by
  induction k with
  | zero => simp [countBackspaces]
  | succ n ih =>
    simp only [List.replicate_succ, countBackspaces, List.filter_cons] at ih ⊢
    simp [isBackspaceEffect, ih]

theorem countBackspaces_appendCharLoop (w : Str) :
    ∀ tr, countBackspaces (appendCharLoop w tr) = countBackspaces tr := by
  induction w with
  | nil => intro tr; simp [appendCharLoop]
  | cons c cs ih =>
    intro tr
    simp only [appendCharLoop]
    by_cases hc : charIsAscii c <;>
      simp only [hc, if_true, if_false, Bool.false_eq_true, ih, countBackspaces_append] <;>
      simp [countBackspaces, isBackspaceEffect]

theorem countBackspaces_appendWordLoop (env : Env) (ws : List Str) :
    ∀ tr, countBackspaces (appendWordLoop env ws tr) = countBackspaces tr := by
  induction ws with
  | nil => intro tr; simp [appendWordLoop]
  | cons w rest ih =>
    intro tr
    simp only [appendWordLoop]
    by_cases hok : env.sendTextOk tr w 20 <;> by_cases hr : rest.isEmpty <;>
      simp only [hok, hr, if_true, if_false, Bool.false_eq_true, ih,
        countBackspaces_appendCharLoop, countBackspaces_append] <;>
      simp [countBackspaces, isBackspaceEffect]

theorem countSleep10_append (a b : List Effect) :
    countSleep10 (a ++ b) = countSleep10 a + countSleep10 b := by
  simp [countSleep10, List.filter_append]

theorem countSleep10_appendCharLoop (w : Str) :
    ∀ tr, countSleep10 (appendCharLoop w tr) = countSleep10 tr + nonAsciiCount w := by
  induction w with
  | nil => intro tr; simp [appendCharLoop, nonAsciiCount]
  | cons c cs ih =>
    intro tr
    simp only [appendCharLoop]
    by_cases hc : charIsAscii c <;>
      simp only [hc, if_true, if_false, Bool.false_eq_true, ih, countSleep10_append] <;>
      simp [countSleep10, isSleep10Effect, nonAsciiCount, hc, List.filter_cons] <;>
      omega

/-- C1 counterexample: a Custom element that exposes a text capability but no
value capability is rejected by the classification gate, refuting the claim
that a Custom element qualifies exactly when it exposes a value or text
capability. -/
theorem c1_custom_text_capability_counterexample :
    is_input_control eCustomTp = false
      ∧ (eCustomTp.hasValuePattern || eCustomTp.hasTextPattern) = true := by
  constructor <;> rfl

/-- C1 (amended): set_text and append_text on any element that fails the
classification gate return the NotAnInputControl error with an empty effect
trace (no keystroke and no text injection is attempted, so the element's
content is unchanged); every Button fails the gate; a Pane element passes the
gate exactly when it exposes a value or text capability, while a Custom
element passes it exactly when it exposes a value capability. -/
theorem c1_classification_gate :
    (∀ (e : Elem) (env : Env) (text : Str), is_input_control e = false →
      set_text e env text
        = { trace := [], result := .err .notAnInputControl, finalMismatch := false })
    ∧ (∀ (e : Elem) (env : Env) (text : Str) (pos : AppendPosition),
        is_input_control e = false →
        append_text e env text pos
          = { trace := [], result := .err .notAnInputControl, actuallyAppended := [] })
    ∧ (∀ e : Elem, e.controlType = .Button → is_input_control e = false)
    ∧ (∀ e : Elem, e.controlType = .Pane →
        is_input_control e = (e.hasValuePattern || e.hasTextPattern))
    ∧ (∀ e : Elem, e.controlType = .Custom →
        is_input_control e = e.hasValuePattern) := by
  refine ⟨?_, ?_, ?_, ?_, ?_⟩
  · intro e env text h
    simp [set_text, h]
  · intro e env text pos h
    simp [append_text, h]
  · intro e h
    simp [is_input_control, h]
  · intro e h
    simp [is_input_control, h]
  · intro e h
    simp [is_input_control, h]

/-- C1 witness: the gate at work on a concrete Button element. -/
theorem c1_classification_gate_witness :
    set_text eButton envAllOk wHi
        = { trace := [], result := .err .notAnInputControl, finalMismatch := false }
      ∧ is_input_control eButton = false :=
  ⟨c1_classification_gate.1 eButton envAllOk wHi (by rfl),
   c1_classification_gate.2.2.1 eButton (by rfl)⟩

/-- C2: get_text returns the value-pattern value when it is non-empty;
otherwise the text-pattern document text when it is non-empty; otherwise the
empty string (no error for an element that holds no text). -/
theorem c2_get_text_strategy_order (e : Elem) (env : Env) (tr : List Effect) :
    (e.hasValuePattern = true → env.valueRead tr ≠ [] →
      get_text e env tr = env.valueRead tr)
    ∧ ((e.hasValuePattern = false ∨ env.valueRead tr = []) →
        e.hasTextPattern = true → env.textRead tr ≠ [] →
        get_text e env tr = env.textRead tr)
    ∧ ((e.hasValuePattern = false ∨ env.valueRead tr = []) →
        (e.hasTextPattern = false ∨ env.textRead tr = []) →
        get_text e env tr = []) := by
  refine ⟨?_, ?_, ?_⟩
  · intro hv hne
    simp [get_text, hv, hne, List.isEmpty_iff]
  · intro hv ht hne
    rcases hv with hv | hv <;>
      simp [get_text, hv, ht, hne, List.isEmpty_iff]
  · intro hv ht
    rcases hv with hv | hv <;> rcases ht with ht | ht <;>
      simp [get_text, hv, ht, List.isEmpty_iff]

/-- C2 witness: a concrete element with neither capability reads back the
empty string rather than an error. -/
theorem c2_get_text_strategy_order_witness :
    get_text eTextPlain envAllOk [] = [] :=
  (c2_get_text_strategy_order eTextPlain envAllOk []).2.2 (Or.inl rfl) (Or.inl rfl)

/-- C3: whenever the classification gate passes and the bulk send_text call
succeeds, set_text returns Ok, whatever the re-read content is after the
correction pass: a remaining verification mismatch is recorded only in the
finalMismatch log flag and never in the returned result. -/
theorem c3_set_text_mismatch_not_surfaced (e : Elem) (env : Env) (text : Str)
    (h1 : is_input_control e = true)
    (h2 : env.sendTextOk (setClearTrace e) text 30 = true) :
    (set_text e env text).result = .ok := by
  simp only [set_text, h1, h2, Bool.not_true, Bool.false_eq_true, if_false]
  split <;> rfl

/-- C3 witness: a concrete run in which the content still mismatches after
corrections (the element always reads back empty), the mismatch is logged, and
the caller still receives Ok. -/
theorem c3_set_text_mismatch_not_surfaced_witness :
    (set_text eEditVal envAllOk wHi).finalMismatch = true
      ∧ (set_text eEditVal envAllOk wHi).result = .ok :=
  ⟨by decide, c3_set_text_mismatch_not_surfaced eEditVal envAllOk wHi (by rfl) (by rfl)⟩

theorem countBackspaces_appendPreTrace (pos : AppendPosition) :
    countBackspaces (appendPreTrace pos) = 0 := by
  cases pos <;> decide

theorem countBackspaces_bulkTrace (text : Str) (pos : AppendPosition) :
    countBackspaces (appendPreTrace pos ++ [Effect.sendText text 30, Effect.sleep 200])
      = 0 := by
  rw [countBackspaces_append, countBackspaces_appendPreTrace]
  simp [countBackspaces, isBackspaceEffect]

theorem append_text_bulk_ok (e : Elem) (env : Env) (text suffix : Str)
    (pos : AppendPosition)
    (h1 : is_input_control e = true)
    (h2 : env.sendTextOk (appendPreTrace pos) text 30 = true)
    (h3 : get_text e env (appendPreTrace pos ++ [Effect.sendText text 30, Effect.sleep 200])
        = get_text e env (appendPreTrace pos) ++ suffix) :
    append_text e env text pos
      = appendContinue env text
          (appendPreTrace pos ++ [Effect.sendText text 30, Effect.sleep 200]) suffix := by
  simp only [append_text, h1, h2, Bool.not_true, Bool.false_eq_true, if_false, h3]
  cases suffix with
  | nil =>
    rw [List.append_nil]
    rw [if_neg (Nat.lt_irrefl _)]
  | cons c cs =>
    have hc := charUtf8Len_pos c
    rw [if_pos (by rw [byteLen_append]; simp [byteLen]; omega)]
    rw [sliceAtByte_append]

/-- C4: when the classification gate passes, the bulk injection succeeds, the
re-read text extends the pre-append baseline by some suffix, that suffix
differs from the intended append string, and backspace keystrokes succeed:
the verification takes as actually-appended exactly the suffix of the re-read
text beyond the baseline length, exactly one backspace per actually-appended
character is sent, append_text still returns Ok, the final trace is exactly
the word-by-word retry of the intended text run after the backspace removal,
and the character-by-character fallback adds one 10ms settle delay per
non-ASCII character. -/
theorem c4_append_text_verify_and_correct (e : Elem) (env : Env)
    (text suffix : Str) (pos : AppendPosition)
    (h1 : is_input_control e = true)
    (h2 : env.sendTextOk (appendPreTrace pos) text 30 = true)
    (h3 : get_text e env (appendPreTrace pos ++ [Effect.sendText text 30, Effect.sleep 200])
        = get_text e env (appendPreTrace pos) ++ suffix)
    (h4 : suffix ≠ text)
    (h5 : ∀ tr, env.sendKeysOk tr backspaceKeys 10 = true) :
    (append_text e env text pos).actuallyAppended = suffix
    ∧ countBackspaces (append_text e env text pos).trace = suffix.length
    ∧ (append_text e env text pos).result = .ok
    ∧ (append_text e env text pos).trace
        = appendWordLoop env (split_whitespace text)
            (if 0 < suffix.length then
              backspaceLoop env suffix.length
                  (appendPreTrace pos ++ [Effect.sendText text 30, Effect.sleep 200])
                ++ [Effect.sleep 100]
            else appendPreTrace pos ++ [Effect.sendText text 30, Effect.sleep 200])
    ∧ (∀ (w : Str) (tr : List Effect),
        countSleep10 (appendCharLoop w tr) = countSleep10 tr + nonAsciiCount w) := by
  rw [append_text_bulk_ok e env text suffix pos h1 h2 h3]
  refine ⟨?_, ?_, ?_, ?_, fun w tr => countSleep10_appendCharLoop w tr⟩
  · simp only [appendContinue, if_neg h4]
  · simp only [appendContinue, if_neg h4]
    rw [countBackspaces_appendWordLoop]
    by_cases hk : 0 < suffix.length
    · rw [if_pos hk, countBackspaces_append,
        backspaceLoop_all_ok env h5 suffix.length, countBackspaces_append,
        countBackspaces_bulkTrace, countBackspaces_replicate]
      simp [countBackspaces, isBackspaceEffect]
    · rw [if_neg hk, countBackspaces_bulkTrace]
      omega
  · simp only [appendContinue, if_neg h4]
  · simp only [appendContinue, if_neg h4]

/-- C4 witness: a concrete append in which the element reads back one
character z instead of the intended x: the computed actually-appended suffix
is that character, and exactly one backspace is sent before the retry. -/
theorem c4_append_text_verify_and_correct_witness :
    (append_text eEditVal envAppendW wX .CurrentCursor).actuallyAppended = ['z']
      ∧ countBackspaces (append_text eEditVal envAppendW wX .CurrentCursor).trace = 1 :=
  ⟨(c4_append_text_verify_and_correct eEditVal envAppendW wX ['z'] .CurrentCursor
      (by rfl) (by rfl) (by decide) (by decide) (fun tr => rfl)).1,
   (c4_append_text_verify_and_correct eEditVal envAppendW wX ['z'] .CurrentCursor
      (by rfl) (by rfl) (by decide) (by decide) (fun tr => rfl)).2.1⟩

theorem appendContinue_result (env : Env) (text : Str) (tr : List Effect)
    (ap : Str) : (appendContinue env text tr ap).result = .ok := by
  simp only [appendContinue]
  split
  · rfl
  · rfl

/-- C10 counterexample: with a one-byte baseline and a two-byte one-character
re-read, the re-read is byte-longer than the baseline yet the baseline's byte
length does not fall on a character boundary of the re-read text: the slice is
undefined and append_text panics, refuting the claim that the byte-length
comparison alone makes the slice well defined. -/
theorem c10_byte_slice_counterexample :
    byteLen ['a'] < byteLen ['é']
      ∧ sliceAtByte ['é'] (byteLen ['a']) = none
      ∧ (append_text eEditVal envPanicW wX .CurrentCursor).result = .panicked :=
  ⟨by decide, by decide, by decide⟩

/-- C10 (amended): the byte slice at the baseline's byte length is well
defined whenever the re-read text extends the baseline as a prefix, and under
that condition append_text never panics; when the re-read text is merely
byte-longer, the slice can fall inside a character and append_text panics
(see the counterexample). -/
theorem c10_byte_slice_amended :
    (∀ before suffix : Str, sliceAtByte (before ++ suffix) (byteLen before) = some suffix)
    ∧ (∀ (e : Elem) (env : Env) (text : Str) (pos : AppendPosition),
        (∃ suffix,
          get_text e env (appendPreTrace pos ++ [Effect.sendText text 30, Effect.sleep 200])
            = get_text e env (appendPreTrace pos) ++ suffix) →
        (append_text e env text pos).result ≠ .panicked) := by
  refine ⟨sliceAtByte_append, ?_⟩
  rintro e env text pos ⟨suffix, hsuf⟩
  by_cases h1 : is_input_control e
  · by_cases h2 : env.sendTextOk (appendPreTrace pos) text 30
    · rw [append_text_bulk_ok e env text suffix pos h1 h2 hsuf,
        appendContinue_result]
      intro hcon
      cases hcon
    · simp only [append_text, h1, h2, Bool.not_true, Bool.false_eq_true, if_false,
        Bool.not_false, if_true]
      intro hcon
      cases hcon
  · have h1f : is_input_control e = false := by
      cases hic : is_input_control e
      · rfl
      · exact absurd hic h1
    simp [append_text, h1f]

/-- C10 witness: a concrete run whose re-read extends the baseline (both are
empty), where append_text completes without panicking. -/
theorem c10_byte_slice_amended_witness :
    (append_text eEditVal envAllOk wX .CurrentCursor).result ≠ .panicked :=
  c10_byte_slice_amended.2 eEditVal envAllOk wX .CurrentCursor ⟨[], by decide⟩

theorem splitNl_ne_nil (s : Str) : splitNl s ≠ [] := by
  cases s with
  | nil => simp [splitNl]
  | cons c cs =>
    simp only [splitNl]
    by_cases hc : c = '\n'
    · simp [hc]
    · rw [if_neg hc]
      cases h : splitNl cs <;> simp

theorem splitNl_length (s : Str) : (splitNl s).length = countNewlines s + 1 := by
  induction s with
  | nil => simp [splitNl, countNewlines]
  | cons c cs ih =>
    by_cases hc : c = '\n'
    · subst hc
      have hcn : countNewlines ('\n' :: cs) = countNewlines cs + 1 := by
        simp [countNewlines, List.filter_cons]
      have hsp : splitNl ('\n' :: cs) = [] :: splitNl cs := by
        simp [splitNl]
      rw [hsp]
      simp only [List.length_cons]
      omega
    · simp only [splitNl, if_neg hc]
      cases h : splitNl cs with
      | nil => exact absurd h (splitNl_ne_nil cs)
      | cons s0 ss =>
        rw [h] at ih
        simp only [List.length_cons] at ih ⊢
        have hcn : countNewlines (c :: cs) = countNewlines cs := by
          simp [countNewlines, List.filter_cons, hc]
        omega

theorem lineSendsOf_append (a b : List Effect) :
    lineSendsOf (a ++ b) = lineSendsOf a ++ lineSendsOf b := by
  simp [lineSendsOf, List.filter_append]

theorem countShiftEnters_append (a b : List Effect) :
    countShiftEnters (a ++ b) = countShiftEnters a + countShiftEnters b := by
  simp [countShiftEnters, List.filter_append]

theorem thMultiLoop_all_ok (env : Env)
    (hst : ∀ tr l, env.sendTextOk tr l 10 = true)
    (hsk : ∀ tr, env.sendKeysOk tr shiftEnterKeys 20 = true) (lines : List Str) :
    ∀ tr, (thMultiLoop env lines tr).2 = .ok
      ∧ lineSendsOf (thMultiLoop env lines tr).1
          = lineSendsOf tr ++ List.intersperse (Effect.sendKeys shiftEnterKeys 20)
              (lines.map (fun l => Effect.sendText l 10))
      ∧ countShiftEnters (thMultiLoop env lines tr).1
          = countShiftEnters tr + (lines.length - 1) := by
  induction lines with
  | nil => intro tr; simp [thMultiLoop, lineSendsOf, countShiftEnters]
  | cons l rest ih =>
    intro tr
    cases rest with
    | nil =>
      have h1 : thMultiLoop env [l] tr
          = (tr ++ [Effect.sleep 50, Effect.sendText l 10], .ok) := by
        simp [thMultiLoop, hst]
      rw [h1]
      refine ⟨rfl, ?_, ?_⟩
      · simp [lineSendsOf_append, lineSendsOf, isLineSendEffect, List.intersperse]
      · simp [countShiftEnters_append, countShiftEnters, isShiftEnterEffect]
    | cons r rs =>
      have hstep : thMultiLoop env (l :: r :: rs) tr
          = thMultiLoop env (r :: rs)
              (tr ++ [Effect.sleep 50, Effect.sendText l 10]
                ++ [Effect.sleep 50, Effect.sendKeys shiftEnterKeys 20]) := by
        conv_lhs => rw [thMultiLoop]
        simp [hst, hsk]
      rw [hstep]
      obtain ⟨ihok, ihsends, ihcount⟩ :=
        ih (tr ++ [Effect.sleep 50, Effect.sendText l 10]
          ++ [Effect.sleep 50, Effect.sendKeys shiftEnterKeys 20])
      refine ⟨ihok, ?_, ?_⟩
      · rw [ihsends, lineSendsOf_append, lineSendsOf_append]
        simp [lineSendsOf, isLineSendEffect, List.intersperse]
      · rw [ihcount, countShiftEnters_append, countShiftEnters_append]
        simp only [List.length_cons]
        have h1 : countShiftEnters [Effect.sleep 50, Effect.sendKeys shiftEnterKeys 20]
            = 1 := by decide
        have h0 : countShiftEnters [Effect.sleep 50, Effect.sendText l 10] = 0 := by
          simp [countShiftEnters, isShiftEnterEffect]
        omega

/-- C5: for a target string containing a newline, TextHandler set_text takes
the multiline path; with the injection calls succeeding, it returns Ok, the
line-oriented sends of its trace are exactly the newline-split segments of the
target, each sent once, with one Shift+Enter line-break keystroke interspersed
between successive segments (one per newline character of the target, and
never a plain carriage return); and the logged verification holds exactly when
the re-read text equals the target after normalizing CRLF and CR line endings
to a newline on both sides. -/
theorem c5_multiline_shift_enter (e : Elem) (env : Env) (newText : Str)
    (hnl : newText.contains '\n' = true)
    (hst : ∀ tr l, env.sendTextOk tr l 10 = true)
    (hsk : ∀ tr, env.sendKeysOk tr shiftEnterKeys 20 = true) :
    (th_set_text e env newText).result = .ok
    ∧ lineSendsOf (th_set_text e env newText).trace
        = List.intersperse (Effect.sendKeys shiftEnterKeys 20)
            ((splitNl newText).map (fun l => Effect.sendText l 10))
    ∧ countShiftEnters (th_set_text e env newText).trace = countNewlines newText
    ∧ ((th_set_text e env newText).verified = true ↔
        normalizeNewlines (thGetText env (th_set_text e env newText).trace)
          = normalizeNewlines newText) := by
  have hout : th_set_text e env newText
      = set_multiline_text e env newText [Effect.setFocus] := by
    simp only [th_set_text, hnl, if_true]
  obtain ⟨hok, hsends, hcount⟩ := thMultiLoop_all_ok env hst hsk (splitNl newText)
    ([Effect.setFocus] ++ (if e.hasTextPattern then [Effect.selectRange] else []))
  have hpre0 : lineSendsOf
      ([Effect.setFocus] ++ (if e.hasTextPattern then [Effect.selectRange] else []))
        = [] := by
    by_cases ht : e.hasTextPattern <;> simp [ht, lineSendsOf, isLineSendEffect]
  have hprec : countShiftEnters
      ([Effect.setFocus] ++ (if e.hasTextPattern then [Effect.selectRange] else []))
        = 0 := by
    by_cases ht : e.hasTextPattern <;> simp [ht, countShiftEnters, isShiftEnterEffect]
  rw [hout]
  cases hml : thMultiLoop env (splitNl newText)
      ([Effect.setFocus] ++ (if e.hasTextPattern then [Effect.selectRange] else []))
    with
  | mk trL res =>
    rw [hml] at hok hsends hcount
    simp only at hok hsends hcount
    subst hok
    simp only [set_multiline_text, hml]
    refine ⟨by trivial, ?_, ?_, ?_⟩
    · rw [lineSendsOf_append, hsends, hpre0]
      simp [lineSendsOf, isLineSendEffect]
    · rw [countShiftEnters_append, hcount, hprec]
      have hl := splitNl_length newText
      have h0 : countShiftEnters [Effect.sleep 50] = 0 := by decide
      omega
    · simp

/-- C5 witness: a concrete two-line write sends the first segment, one
Shift+Enter, then the second segment. -/
theorem c5_multiline_shift_enter_witness :
    lineSendsOf (th_set_text eEditTp envAllOk wANlB).trace
        = List.intersperse (Effect.sendKeys shiftEnterKeys 20)
            ((splitNl wANlB).map (fun l => Effect.sendText l 10))
      ∧ (th_set_text eEditTp envAllOk wANlB).result = .ok :=
  ⟨(c5_multiline_shift_enter eEditTp envAllOk wANlB (by decide) (fun _ _ => rfl)
      (fun _ => rfl)).2.1,
   (c5_multiline_shift_enter eEditTp envAllOk wANlB (by decide) (fun _ _ => rfl)
      (fun _ => rfl)).1⟩

theorem matchesAll_ok_true_iff (qs : List UIQuery) (e : WElem) :
    matchesAll qs e = .ok true ↔ ∀ q ∈ qs, matchesQ q e = .ok true := by
  induction qs with
  | nil => simp [matchesAll]
  | cons q rest ih =>
    simp only [matchesAll]
    cases h : matchesQ q e with
    | error er =>
      constructor
      · intro hx
        exact Except.noConfusion hx
      · intro hall
        have hq := hall q (List.mem_cons_self q rest)
        rw [h] at hq
        exact Except.noConfusion hq
    | ok b =>
      cases b with
      | false =>
        constructor
        · intro hx
          simp at hx
        · intro hall
          have hq := hall q (List.mem_cons_self q rest)
          rw [h] at hq
          simp at hq
      | true =>
        rw [ih]
        constructor
        · intro hr q' hq'
          rcases List.mem_cons.mp hq' with hq' | hq'
          · rw [hq']
            exact h
          · exact hr q' hq'
        · intro hall q' hq'
          exact hall q' (List.mem_cons_of_mem _ hq')

theorem matchesAnyQ_ok_true_iff (qs : List UIQuery) (e : WElem)
    (hs : ∀ q ∈ qs, ∃ b, matchesQ q e = .ok b) :
    matchesAnyQ qs e = .ok true ↔ ∃ q ∈ qs, matchesQ q e = .ok true := by
  induction qs with
  | nil => simp [matchesAnyQ]
  | cons q rest ih =>
    obtain ⟨b, hb⟩ := hs q (List.mem_cons_self q rest)
    have hrest : ∀ q' ∈ rest, ∃ b2, matchesQ q' e = .ok b2 :=
      fun q' hm => hs q' (List.mem_cons_of_mem _ hm)
    simp only [matchesAnyQ, hb]
    cases b with
    | true =>
      constructor
      · intro _
        exact ⟨q, List.mem_cons_self q rest, hb⟩
      · intro _
        rfl
    | false =>
      rw [ih hrest]
      constructor
      · rintro ⟨q', hm, hq'⟩
        exact ⟨q', List.mem_cons_of_mem _ hm, hq'⟩
      · rintro ⟨q', hm, hq'⟩
        rcases List.mem_cons.mp hm with hm2 | hm2
        · rw [hm2, hb] at hq'
          simp at hq'
        · exact ⟨q', hm2, hq'⟩

/-- C6: matches on And is true exactly when every sub-query matches (and an
already-false prefix short-circuits, even past failing sub-queries); matches
on Or is true exactly when some sub-query matches, provided the sub-queries
evaluate without error (an already-true head short-circuits); Not negates;
the empty And matches every element and the empty Or matches none. -/
theorem c6_matches_boolean_connectives (e : WElem) (qs : List UIQuery)
    (q1 q2 : UIQuery) (rest : List UIQuery) (b : Bool) :
    (matchesQ (.And qs) e = .ok true ↔ ∀ q ∈ qs, matchesQ q e = .ok true)
    ∧ ((∀ q ∈ qs, ∃ b2, matchesQ q e = .ok b2) →
        (matchesQ (.Or qs) e = .ok true ↔ ∃ q ∈ qs, matchesQ q e = .ok true))
    ∧ (matchesQ q2 e = .ok b → matchesQ (.Not q2) e = .ok (!b))
    ∧ matchesQ (.And ([] : List UIQuery)) e = .ok true
    ∧ matchesQ (.Or ([] : List UIQuery)) e = .ok false
    ∧ (matchesQ q1 e = .ok false → matchesQ (.And (q1 :: rest)) e = .ok false)
    ∧ (matchesQ q1 e = .ok true → matchesQ (.Or (q1 :: rest)) e = .ok true) := by
  refine ⟨?_, ?_, ?_, ?_, ?_, ?_, ?_⟩
  · rw [show matchesQ (.And qs) e = matchesAll qs e from by simp [matchesQ]]
    exact matchesAll_ok_true_iff qs e
  · intro hs
    rw [show matchesQ (.Or qs) e = matchesAnyQ qs e from by simp [matchesQ]]
    exact matchesAnyQ_ok_true_iff qs e hs
  · intro hq
    simp [matchesQ, hq]
  · simp [matchesQ, matchesAll]
  · simp [matchesQ, matchesAnyQ]
  · intro hq
    simp [matchesQ, matchesAll, hq]
  · intro hq
    simp [matchesQ, matchesAnyQ, hq]

/-- C6 witness: the Or equivalence at a concrete element and a concrete
one-query list. -/
theorem c6_matches_boolean_connectives_witness :
    matchesQ (.Or [UIQuery.And []]) wLeafOk = .ok true
      ↔ ∃ q ∈ [UIQuery.And []], matchesQ q wLeafOk = .ok true :=
  (c6_matches_boolean_connectives wLeafOk [UIQuery.And []] (UIQuery.And [])
      (UIQuery.And []) [] true).2.1
    (fun q hq => by
      rw [List.mem_singleton.mp hq]
      exact ⟨true, by simp [matchesQ, matchesAll]⟩)

/-- C9: WindowsElement get_children never returns an empty list: a successful
call yields at least one child, a childless element gets the NoChildren error
instead of an empty vector, and query evaluation hitting a childless element
(Child and Descendant matching, recursive find_all) propagates that error
rather than reporting no matches. -/
theorem c9_get_children_never_empty :
    (∀ (e : WElem) (l : List WElem), WindowsLike e → getChildren e = .ok l → l ≠ [])
    ∧ (∀ e : WElem, WindowsLike e → e.childrenList = [] →
        getChildren e = .error .noChildren)
    ∧ (∀ (q : UIQuery) (e : WElem), WindowsLike e → e.childrenList = [] →
        matchesQ (.Child q) e = .error .noChildren
          ∧ matchesQ (.Descendant q) e = .error .noChildren)
    ∧ (∀ (q : UIQuery) (e : WElem), WindowsLike e → e.childrenList = [] →
        find_all q e = .error .noChildren) := by
  have hfail : ∀ e : WElem, WindowsLike e → e.childrenList = [] →
      e.childrenFail = true := by
    intro e hw hnil
    cases hw with
    | mk hf _ => rw [hf, hnil]; rfl
  refine ⟨?_, ?_, ?_, ?_⟩
  · intro e l hw hok hnil
    subst hnil
    cases hw with
    | mk hf _ =>
      unfold getChildren at hok
      by_cases hcf : e.childrenFail = true
      · rw [if_pos hcf] at hok
        exact Except.noConfusion hok
      · rw [if_neg hcf] at hok
        have hl : e.childrenList = [] := by simpa using hok
        rw [hl] at hf
        exact hcf (by simpa using hf)
  · intro e hw hnil
    unfold getChildren
    rw [if_pos (hfail e hw hnil)]
  · intro q e hw hnil
    constructor
    · simp [matchesQ, hfail e hw hnil]
    · simp [matchesQ, hfail e hw hnil]
  · intro q e hw hnil
    have hcf := hfail e hw hnil
    simp only [find_all]
    cases h : matchesQ q e with
    | error er =>
      cases er
      rfl
    | ok m =>
      simp [hcf]

theorem WElem.childrenList_sizeOf_lt (e : WElem) : sizeOf e.childrenList < sizeOf e := by
  cases e with
  | mk p f cs =>
    simp [WElem.childrenList]
    try omega

theorem WElem.mem_children_sizeOf_lt {c e : WElem} (h : c ∈ e.childrenList) :
    sizeOf c < sizeOf e :=
  Nat.lt_trans (List.sizeOf_lt_of_mem h) (childrenList_sizeOf_lt e)

theorem WElem.strongInd (P : WElem → Prop)
    (ih : ∀ e, (∀ c, c ∈ WElem.childrenList e → P c) → P e) : ∀ e, P e := by
  have H : ∀ (n : Nat) (e : WElem), sizeOf e ≤ n → P e := by
    intro n
    induction n with
    | zero =>
      intro e he
      refine ih e (fun c hc => ?_)
      exact absurd (Nat.lt_of_lt_of_le (mem_children_sizeOf_lt hc) he)
        (Nat.not_lt_zero _)
    | succ n ihn =>
      intro e he
      refine ih e (fun c hc => ihn c ?_)
      have := mem_children_sizeOf_lt hc
      omega
  intro e
  exact H (sizeOf e) e (Nat.le_refl _)

theorem matchesQ_and_single (q : UIQuery) (e : WElem) :
    matchesQ (.And [q]) e = matchesQ q e := by
  rw [show matchesQ (.And [q]) e = matchesAll [q] e from by simp [matchesQ]]
  simp only [matchesAll]
  cases h : matchesQ q e with
  | error er => simp [h]
  | ok b => cases b <;> simp [h, matchesAll]

theorem findAllList_congr (q1 q2 : UIQuery) (cs : List WElem)
    (h : ∀ c ∈ cs, find_all q1 c = find_all q2 c) :
    findAllList q1 cs = findAllList q2 cs := by
  induction cs with
  | nil => simp [findAllList]
  | cons c cs ih =>
    simp only [findAllList]
    rw [h c (List.mem_cons_self c cs),
      ih (fun c' hc' => h c' (List.mem_cons_of_mem _ hc'))]

theorem find_all_congr (q1 q2 : UIQuery)
    (hm : ∀ x, matchesQ q1 x = matchesQ q2 x) :
    ∀ root, find_all q1 root = find_all q2 root := by
  apply WElem.strongInd (fun root => find_all q1 root = find_all q2 root)
  intro e ihc
  simp only [find_all]
  rw [hm e, findAllList_congr q1 q2 e.childrenList ihc]

theorem findAllList_char (cs : List WElem)
    (hmem : ∀ c ∈ cs, ∀ (q : UIQuery) (l : List WElem), find_all q c = .ok l →
      ∀ x, x ∈ l ↔ (OccursIn x c ∧ matchesQ q x = .ok true)) (q : UIQuery) :
    ∀ r, findAllList q cs = .ok r →
      ∀ x, x ∈ r ↔ ∃ c ∈ cs, OccursIn x c ∧ matchesQ q x = .ok true := by
  induction cs with
  | nil =>
    intro r hr x
    simp only [findAllList] at hr
    have : ([] : List WElem) = r := by simpa using hr
    subst this
    simp
  | cons c cs ih =>
    intro r hr x
    simp only [findAllList] at hr
    cases h1 : find_all q c with
    | error er =>
      rw [h1] at hr
      exact Except.noConfusion hr
    | ok rc =>
      simp only [h1] at hr
      cases h2 : findAllList q cs with
      | error er =>
        rw [h2] at hr
        exact Except.noConfusion hr
      | ok rest =>
        simp only [h2] at hr
        have hr3 : rc ++ rest = r := by simpa using hr
        subst hr3
        rw [List.mem_append, hmem c (List.mem_cons_self c cs) q rc h1 x,
          ih (fun c' hc' => hmem c' (List.mem_cons_of_mem _ hc')) rest h2 x]
        constructor
        · rintro (⟨ho, hmx⟩ | ⟨c', hc', ho, hmx⟩)
          · exact ⟨c, List.mem_cons_self c cs, ho, hmx⟩
          · exact ⟨c', List.mem_cons_of_mem _ hc', ho, hmx⟩
        · rintro ⟨c', hc', ho, hmx⟩
          rcases List.mem_cons.mp hc' with h | h
          · rw [h] at ho
            exact Or.inl ⟨ho, hmx⟩
          · exact Or.inr ⟨c', h, ho, hmx⟩

theorem find_all_char : ∀ (root : WElem) (q : UIQuery) (l : List WElem),
    find_all q root = .ok l →
    ∀ x, x ∈ l ↔ (OccursIn x root ∧ matchesQ q x = .ok true) := by
  apply WElem.strongInd (fun root => ∀ (q : UIQuery) (l : List WElem),
    find_all q root = .ok l →
    ∀ x, x ∈ l ↔ (OccursIn x root ∧ matchesQ q x = .ok true))
  intro e ihc q l hl x
  simp only [find_all] at hl
  cases hm : matchesQ q e with
  | error er =>
    rw [hm] at hl
    exact Except.noConfusion hl
  | ok m =>
    simp only [hm] at hl
    by_cases hcf : e.childrenFail = true
    · rw [if_pos hcf] at hl
      exact Except.noConfusion hl
    · rw [if_neg hcf] at hl
      cases hrest : findAllList q e.childrenList with
      | error er =>
        rw [hrest] at hl
        exact Except.noConfusion hl
      | ok rest =>
        simp only [hrest] at hl
        have hl2 : (if m then [e] else []) ++ rest = l := by simpa using hl
        subst hl2
        rw [List.mem_append, findAllList_char e.childrenList ihc q rest hrest x]
        constructor
        · rintro (hin | ⟨c, hc, ho, hmx⟩)
          · cases m with
            | false => simp at hin
            | true =>
              have hx : x = e := by simpa using hin
              subst hx
              exact ⟨OccursIn.here x, hm⟩
          · exact ⟨OccursIn.child hc ho, hmx⟩
        · rintro ⟨ho, hmx⟩
          cases ho with
          | here =>
            have hmt : m = true := by
              rw [hm] at hmx
              simpa using hmx
            subst hmt
            exact Or.inl (by simp)
          | child hc ho2 =>
            exact Or.inr ⟨_, hc, ho2, hmx⟩

theorem findAllList_ok_members (q : UIQuery) (cs : List WElem)
    (r : List WElem) (h : findAllList q cs = .ok r) :
    ∀ c ∈ cs, ∃ rc, find_all q c = .ok rc := by
  induction cs generalizing r with
  | nil =>
    intro c hc
    exact absurd hc (List.not_mem_nil c)
  | cons c0 cs ih =>
    intro c hc
    simp only [findAllList] at h
    cases h1 : find_all q c0 with
    | error er =>
      rw [h1] at h
      exact Except.noConfusion h
    | ok rc0 =>
      simp only [h1] at h
      cases h2 : findAllList q cs with
      | error er =>
        rw [h2] at h
        exact Except.noConfusion h
      | ok rest =>
        rcases List.mem_cons.mp hc with hceq | hcm
        · rw [hceq]
          exact ⟨rc0, h1⟩
        · exact ih rest h2 c hcm

theorem find_all_ok_matches : ∀ (root : WElem) (q : UIQuery) (l : List WElem),
    find_all q root = .ok l →
    ∀ x, OccursIn x root → ∃ b, matchesQ q x = .ok b := by
  apply WElem.strongInd (fun root => ∀ (q : UIQuery) (l : List WElem),
    find_all q root = .ok l →
    ∀ x, OccursIn x root → ∃ b, matchesQ q x = .ok b)
  intro e ihc q l hl x ho
  simp only [find_all] at hl
  cases hm : matchesQ q e with
  | error er =>
    rw [hm] at hl
    exact Except.noConfusion hl
  | ok m =>
    simp only [hm] at hl
    by_cases hcf : e.childrenFail = true
    · rw [if_pos hcf] at hl
      exact Except.noConfusion hl
    · rw [if_neg hcf] at hl
      cases hrest : findAllList q e.childrenList with
      | error er =>
        rw [hrest] at hl
        exact Except.noConfusion hl
      | ok rest =>
        cases ho with
        | here => exact ⟨m, hm⟩
        | child hc ho2 =>
          obtain ⟨rc, hrc⟩ := findAllList_ok_members q e.childrenList rest hrest _ hc
          exact ihc _ hc q rc hrc x ho2

/-- C7: find_all of a one-element And equals find_all of its sub-query;
find_all of a two-query Or contains every result of the first sub-query and
every result of the second sub-query (a successful Or traversal means no
sub-query erred at any visited node, so the second sub-query's matches are
reached past the first); find_all of a query and of its negation are
disjoint. -/
theorem c7_find_all_query_algebra (q q1 q2 : UIQuery) (root : WElem)
    (l1 l2 l lq l' : List WElem) :
    (find_all (.And [q]) root = find_all q root)
    ∧ (find_all q1 root = .ok l1 → find_all (.Or [q1, q2]) root = .ok l →
        ∀ x ∈ l1, x ∈ l)
    ∧ (find_all q2 root = .ok l2 → find_all (.Or [q1, q2]) root = .ok l →
        ∀ x ∈ l2, x ∈ l)
    ∧ (find_all q root = .ok lq → find_all (.Not q) root = .ok l' →
        ∀ x ∈ lq, x ∉ l') := by
  refine ⟨?_, ?_, ?_, ?_⟩
  · exact find_all_congr _ _ (fun x => matchesQ_and_single q x) root
  · intro h1 h2 x hx
    obtain ⟨ho, hmx⟩ := (find_all_char root q1 l1 h1 x).mp hx
    refine (find_all_char root (.Or [q1, q2]) l h2 x).mpr ⟨ho, ?_⟩
    rw [show matchesQ (.Or [q1, q2]) x = matchesAnyQ [q1, q2] x from by
      simp [matchesQ]]
    simp [matchesAnyQ, hmx]
  · intro h2' hOr x hx
    obtain ⟨ho, hmx⟩ := (find_all_char root q2 l2 h2' x).mp hx
    refine (find_all_char root (.Or [q1, q2]) l hOr x).mpr ⟨ho, ?_⟩
    obtain ⟨b, hb⟩ := find_all_ok_matches root (.Or [q1, q2]) l hOr x ho
    rw [show matchesQ (.Or [q1, q2]) x = matchesAnyQ [q1, q2] x from by
      simp [matchesQ]] at hb ⊢
    cases h1 : matchesQ q1 x with
    | error er =>
      rw [show matchesAnyQ [q1, q2] x = .error er from by
        simp [matchesAnyQ, h1]] at hb
      exact Except.noConfusion hb
    | ok b1 =>
      cases b1 with
      | true => simp [matchesAnyQ, h1]
      | false => simp [matchesAnyQ, h1, hmx]
  · intro h1 h2 x hx hx'
    obtain ⟨_, hmx⟩ := (find_all_char root q lq h1 x).mp hx
    obtain ⟨_, hmn⟩ := (find_all_char root (.Not q) l' h2 x).mp hx'
    have hnf : matchesQ (.Not q) x = .ok false := by
      simp [matchesQ, hmx]
    rw [hnf] at hmn
    simp at hmn

/-- C7 witness: the one-element And collapse and both halves of the Or
superset property on a concrete two-node tree whose traversal succeeds. -/
theorem c7_find_all_query_algebra_witness :
    find_all (.And [UIQuery.And []]) wRootOk = find_all (UIQuery.And []) wRootOk
      ∧ wLeafOk ∈ ([wRootOk, wLeafOk] : List WElem)
      ∧ wRootOk ∈ ([wRootOk, wLeafOk] : List WElem) := by
  have hAnd : find_all (UIQuery.And []) wRootOk = .ok [wRootOk, wLeafOk] := by
    simp [find_all, findAllList, matchesQ, matchesAll, wRootOk, wLeafOk,
      WElem.childrenFail, WElem.childrenList]
  have hOr : find_all (.Or [UIQuery.And [], UIQuery.And []]) wRootOk
      = .ok [wRootOk, wLeafOk] := by
    simp [find_all, findAllList, matchesQ, matchesAll, matchesAnyQ, wRootOk, wLeafOk,
      WElem.childrenFail, WElem.childrenList]
  refine ⟨(c7_find_all_query_algebra (UIQuery.And []) (UIQuery.And [])
      (UIQuery.And []) wRootOk [wRootOk, wLeafOk] [wRootOk, wLeafOk]
      [wRootOk, wLeafOk] [] []).1, ?_, ?_⟩
  · exact (c7_find_all_query_algebra (UIQuery.And []) (UIQuery.And [])
      (UIQuery.And []) wRootOk [wRootOk, wLeafOk] [wRootOk, wLeafOk]
      [wRootOk, wLeafOk] [] []).2.1 hAnd hOr wLeafOk (by simp [hAnd])
  · exact (c7_find_all_query_algebra (UIQuery.And []) (UIQuery.And [])
      (UIQuery.And []) wRootOk [wRootOk, wLeafOk] [wRootOk, wLeafOk]
      [wRootOk, wLeafOk] [] []).2.2.1 hAnd hOr wRootOk (by simp [hAnd])

theorem buildKids_length_le (n : Nat) (cs : List WElem) (d m : Nat) :
    (buildKids n cs d m).length ≤ n := by
  induction n generalizing cs with
  | zero => cases cs <;> simp [buildKids]
  | succ k ih =>
    cases cs with
    | nil => simp [buildKids]
    | cons c cs =>
      simp only [buildKids, List.length_cons]
      have := ih cs
      omega

theorem buildKids_mem (n : Nat) (cs : List WElem) (d m : Nat) (t : UITreeNode)
    (h : t ∈ buildKids n cs d m) : ∃ c ∈ cs, t = buildTreeNode c (d + 1) m := by
  induction n generalizing cs with
  | zero => simp [buildKids] at h
  | succ k ih =>
    cases cs with
    | nil => simp [buildKids] at h
    | cons c cs =>
      simp only [buildKids, List.mem_cons] at h
      rcases h with h | h
      · exact ⟨c, List.mem_cons_self c cs, h⟩
      · obtain ⟨c', hc', ht⟩ := ih cs h
        exact ⟨c', List.mem_cons_of_mem _ hc', ht⟩

theorem boundedCheckList_all (fuel : Nat) (ts : List UITreeNode)
    (h : ∀ t ∈ ts, boundedCheck 20 fuel t = true) :
    boundedCheckList fuel ts = true := by
  induction ts with
  | nil => simp [boundedCheckList]
  | cons t ts ih =>
    rw [show boundedCheckList fuel (t :: ts)
        = (boundedCheck 20 fuel t && boundedCheckList fuel ts) from by
      simp [boundedCheckList]]
    rw [h t (List.mem_cons_self t ts),
      ih (fun t' ht' => h t' (List.mem_cons_of_mem _ ht'))]
    rfl

theorem buildTreeNode_children (e : WElem) (depth maxDepth : Nat) :
    (buildTreeNode e depth maxDepth).children
      = if depth < maxDepth then
          (if e.childrenFail then []
           else buildKids (if depth = 0 then 50 else 20) e.childrenList depth maxDepth)
        else [] := by
  cases e with
  | mk p f cs =>
    simp only [buildTreeNode, UITreeNode.children, WElem.childrenFail,
      WElem.childrenList]

theorem buildTreeNode_bounded : ∀ (e : WElem) (depth maxDepth : Nat),
    boundedCheck (if depth = 0 then 50 else 20) (maxDepth - depth)
      (buildTreeNode e depth maxDepth) = true := by
  apply WElem.strongInd (fun e => ∀ (depth maxDepth : Nat),
    boundedCheck (if depth = 0 then 50 else 20) (maxDepth - depth)
      (buildTreeNode e depth maxDepth) = true)
  intro e ihc depth maxDepth
  by_cases hlt : depth < maxDepth
  · obtain ⟨f, hf⟩ : ∃ f, maxDepth - depth = f + 1 :=
      ⟨maxDepth - depth - 1, by omega⟩
    rw [hf]
    rw [show boundedCheck (if depth = 0 then 50 else 20) (f + 1)
        (buildTreeNode e depth maxDepth)
        = (decide ((buildTreeNode e depth maxDepth).children.length
            ≤ (if depth = 0 then 50 else 20))
          && boundedCheckList f (buildTreeNode e depth maxDepth).children) from by
      simp [boundedCheck]]
    simp only [Bool.and_eq_true, decide_eq_true_eq]
    constructor
    · rw [buildTreeNode_children, if_pos hlt]
      by_cases hcf : e.childrenFail = true
      · simp [hcf]
      · rw [if_neg hcf]
        exact buildKids_length_le _ _ _ _
    · apply boundedCheckList_all
      intro t ht
      rw [buildTreeNode_children, if_pos hlt] at ht
      by_cases hcf : e.childrenFail = true
      · rw [if_pos hcf] at ht
        simp at ht
      · rw [if_neg hcf] at ht
        obtain ⟨c, hc, hteq⟩ := buildKids_mem _ _ _ _ t ht
        subst hteq
        have hrec := ihc c hc (depth + 1) maxDepth
        have hd1 : ¬(depth + 1 = 0) := by omega
        rw [if_neg hd1] at hrec
        have hsub : maxDepth - (depth + 1) = f := by omega
        rw [hsub] at hrec
        exact hrec
  · have h0 : maxDepth - depth = 0 := by omega
    rw [h0]
    rw [show boundedCheck (if depth = 0 then 50 else 20) 0
        (buildTreeNode e depth maxDepth)
        = (buildTreeNode e depth maxDepth).children.isEmpty from by
      simp [boundedCheck]]
    rw [buildTreeNode_children, if_neg hlt]
    rfl

/-- C8: every snapshot produced by get_ui_tree (which builds with depth 0 and
maximum depth 3) is bounded: no node occurs at depth greater than 3, a node at
depth 3 has an empty children list, and the root has at most 50 children while
every deeper node has at most 20. -/
theorem c8_ui_tree_depth_breadth_bounds (e : WElem) :
    boundedCheck 50 3 (getUiTreeRoot e) = true := by
  have h := buildTreeNode_bounded e 0 3
  simpa [getUiTreeRoot] using h

/-- C9 witness: a concrete childless Windows-like element: get_children fails
with NoChildren and find_all propagates the error. -/
theorem c9_get_children_never_empty_witness :
    getChildren wLeafErr = .error .noChildren
      ∧ find_all (UIQuery.And []) wLeafErr = .error .noChildren :=
  ⟨c9_get_children_never_empty.2.1 wLeafErr
      (WindowsLike.mk rfl (by intro c hc; exact absurd hc (by simp [wLeafErr, WElem.childrenList]))) rfl,
   c9_get_children_never_empty.2.2.2 (UIQuery.And []) wLeafErr
      (WindowsLike.mk rfl (by intro c hc; exact absurd hc (by simp [wLeafErr, WElem.childrenList]))) rfl⟩

end UII
